import Mathlib

/-!
# Verification of the token-splitter core

A shallow embedding, in Lean 4, of the core of the `token-splitter`
repository (`src/tokenizer.ts`, `src/splitText.ts`, `src/splitCsv.ts`),
together with proofs and refutations of the frozen specification claims.

Modelling conventions:
* A JavaScript string is modelled as `List Char` (one element per character;
  the inputs of interest are BMP text, where JS `.length` agrees with the
  character count).
* The pluggable token counter (`countTokens`, which may delegate to an
  external exact encoder or to the deterministic approximation) is modelled
  as an arbitrary pure function `tc : List Char → Nat`; the deterministic
  approximation `approximateTokenCount` is embedded exactly.
* `Math.floor(len * 0.85)` on JS doubles agrees with `len * 85 / 100` in
  exact integer arithmetic for every realistic length, and is modelled so.
* File-system effects are modelled by data: the CSV splitter receives the
  input's existence as a boolean and the streamed lines as a list, and
  returns the parts it would have written.
-/

deriving instance DecidableEq for Except

namespace TokenSplitter

/-- JS `\s` whitespace class (the characters relevant to this code base:
ASCII whitespace, NBSP, BOM). Shared by all definitions that the source
expresses with `\s` or `trim`. -/
def isWs (c : Char) : Bool :=
  c = ' ' || c = '\t' || c = '\n' || c = '\r' || c = '\x0b' || c = '\x0c' ||
  c = ' ' || c = '﻿'

/-- `String.prototype.trimStart`. -/
def trimStartL (l : List Char) : List Char := l.dropWhile isWs

/-- `String.prototype.trimEnd`. -/
def trimEndL (l : List Char) : List Char := (l.reverse.dropWhile isWs).reverse

/-- `String.prototype.trim`. -/
def trimL (l : List Char) : List Char := trimEndL (trimStartL l)

/-- `replace(/\s+/g, ' ')`: the boolean records whether we are inside a
whitespace run that has already emitted its single space. -/
def collapseAux : Bool → List Char → List Char
  | _, [] => []
  | inRun, c :: cs =>
      if isWs c then
        if inRun then collapseAux true cs else ' ' :: collapseAux true cs
      else c :: collapseAux false cs

/-- `text.replace(/\s+/g, ' ')` — collapse every whitespace run to one space. -/
def collapseWs (l : List Char) : List Char := collapseAux false l

/-- The punctuation class `[.,;:!?()[\]{}"']` of `tokenizer.ts`. -/
def isPunct (c : Char) : Bool :=
  c = '.' || c = ',' || c = ';' || c = ':' || c = '!' || c = '?' ||
  c = '(' || c = ')' || c = '[' || c = ']' || c = '\x7b' || c = '\x7d' ||
  c = '"' || c = '\''

/-- `approximateTokenCount` from `src/tokenizer.ts`, line for line:
normalize = collapse whitespace runs then trim; empty ⇒ 0; otherwise
`max 1 (⌈chars/4⌉ + ⌈punct/6⌉)`. -/
def approximateTokenCount (text : List Char) : Nat :=
  let normalized := trimL (collapseWs text)
  if normalized = [] then 0
  else
    let punct := (normalized.filter isPunct).length
    let chars := normalized.length
    let base := (chars + 3) / 4
    let bump := (punct + 5) / 6
    max 1 (base + bump)

/-- Split into maximal whitespace-free words, dropping whitespace; the
accumulator holds the current word reversed. -/
def wsWordsAux : List Char → List Char → List (List Char)
  | acc, [] => if acc = [] then [] else [acc.reverse]
  | acc, c :: cs =>
      if isWs c then
        if acc = [] then wsWordsAux [] cs else acc.reverse :: wsWordsAux [] cs
      else wsWordsAux (c :: acc) cs

/-- The maximal whitespace-free words of `l`, in order. -/
def wsWords (l : List Char) : List (List Char) := wsWordsAux [] l

/-- JS `Array.prototype.join`: pieces interleaved with a separator. -/
def joinWith (sep : List Char) : List (List Char) → List Char
  | [] => []
  | [w] => w
  | w :: ws => w ++ sep ++ joinWith sep ws

/-- Modelled from the spec (§4.1), as an independent rendering of
"collapse all whitespace runs to a single space and trim": the
whitespace-separated words joined by single spaces. -/
def specNormalize (l : List Char) : List Char :=
  joinWith [' '] (wsWords l)

/-- Modelled from the spec (§4.1): the approximate counting formula in the
spec's words, used only to be compared against `approximateTokenCount`. -/
def specApproximateTokenCount (text : List Char) : Nat :=
  let normalized := specNormalize text
  if normalized = [] then 0
  else
    let punct := (normalized.filter isPunct).length
    max 1 ((normalized.length + 3) / 4 + (punct + 5) / 6)


/-! ## Text segmentation (`src/splitText.ts`, lines 14–39) -/

/-- `text.replace(/\r\n/g, "\n")`. -/
def normalizeCRLF : List Char → List Char
  | [] => []
  | '\r' :: '\n' :: cs => '\n' :: normalizeCRLF cs
  | c :: cs => c :: normalizeCRLF cs

/-- `split(/\n{2,}/g)`: the separator is a maximal run of two or more
newlines.  `acc` holds the current piece reversed; the flag is true while
skipping the remainder of a separator run. -/
def paraGo : Bool → List Char → List Char → List (List Char)
  | _, acc, [] => [acc.reverse]
  | true, acc, c :: cs =>
      if c = '\n' then paraGo true acc cs else paraGo false (c :: acc) cs
  | false, acc, '\n' :: '\n' :: cs => acc.reverse :: paraGo true [] cs
  | false, acc, c :: cs => paraGo false (c :: acc) cs

/-- `split("\n")`. -/
def lineGo : List Char → List Char → List (List Char)
  | acc, [] => [acc.reverse]
  | acc, c :: cs =>
      if c = '\n' then acc.reverse :: lineGo [] cs else lineGo (c :: acc) cs

/-- The lookbehind class `[.!?]` of the sentence-boundary regex. -/
def isBoundary : Option Char → Bool
  | some c => c = '.' || c = '!' || c = '?'
  | none => false

/-- The lookahead class `[A-Z0-9"“‘(\[]` of the sentence-boundary regex. -/
def isSentStart (c : Char) : Bool :=
  ('A' ≤ c && c ≤ 'Z') || ('0' ≤ c && c ≤ '9') ||
  c = '"' || c = '“' || c = '‘' || c = '(' || c = '['

/-- `split(/(?<=[.!?])\s+(?=[A-Z0-9"“‘(\[])/g)`: a split point is a
whitespace run whose left neighbour is `.`/`!`/`?` and whose right
neighbour looks like a sentence start.  `prev` is the last consumed
character, `acc` the current piece reversed; a non-empty `pend` holds a
whitespace run (reversed) that may yet become a separator. -/
def sentGo (prev : Option Char) (acc pend : List Char) :
    List Char → List (List Char)
  | [] => [(pend ++ acc).reverse]
  | c :: cs =>
      if pend = [] then
        if isBoundary prev && isWs c then sentGo prev acc [c] cs
        else sentGo (some c) (c :: acc) [] cs
      else
        if isWs c then sentGo prev acc (c :: pend) cs
        else if isSentStart c then acc.reverse :: sentGo (some c) [c] [] cs
        else sentGo (some c) (c :: (pend ++ acc)) [] cs

/-- The `parts` array of `splitIntoSentences` (`splitText.ts:16-19`):
split, trim each piece, drop empties. -/
def sentenceParts (text : List Char) : List (List Char) :=
  ((sentGo none [] [] (normalizeCRLF text)).map trimL).filter (· ≠ [])

/-- `splitIntoSentences` (`splitText.ts:14`). -/
def splitIntoSentences (text : List Char) : List (List Char) :=
  let parts := sentenceParts text
  if parts = [] then [trimL text] else parts

/-- The `parts` array of `splitIntoParagraphs` (`splitText.ts:25-28`). -/
def paragraphParts (text : List Char) : List (List Char) :=
  ((paraGo false [] (normalizeCRLF text)).map trimL).filter (· ≠ [])

/-- `splitIntoParagraphs` (`splitText.ts:23`). -/
def splitIntoParagraphs (text : List Char) : List (List Char) :=
  let parts := paragraphParts text
  if parts = [] then [trimL text] else parts

/-- The `parts` array of `splitIntoLines` (`splitText.ts:34-37`):
split on newlines, right-trim, drop lines made empty. -/
def lineParts (text : List Char) : List (List Char) :=
  ((lineGo [] (normalizeCRLF text)).map trimEndL).filter (·.length > 0)

/-- `splitIntoLines` (`splitText.ts:32`). -/
def splitIntoLines (text : List Char) : List (List Char) :=
  let parts := lineParts text
  if parts = [] then [trimL text] else parts

/-- The `mode` option of `splitTextIntoTokenChunks`. -/
inductive Mode | paragraph | sentence | line
deriving DecidableEq, Repr

/-- The mode dispatch at `splitText.ts:48-51`. -/
def segment (mode : Mode) (text : List Char) : List (List Char) :=
  match mode with
  | .sentence => splitIntoSentences text
  | .line => splitIntoLines text
  | .paragraph => splitIntoParagraphs text

/-- The pre-fallback piece list of the segmenter selected by `mode`. -/
def segmentParts (mode : Mode) (text : List Char) : List (List Char) :=
  match mode with
  | .sentence => sentenceParts text
  | .line => lineParts text
  | .paragraph => paragraphParts text


/-! ## The chunk packer (`src/splitText.ts`, lines 41–115)

A `Chunk` records its provenance: `packed` chunks accumulate whole units
(joined with the mode separator when rendered), `fragment` chunks are the
standalone pieces emitted by the hard-split fallback for oversized units.
The source's returned `chunks`/`tokenCounts` arrays are recovered by
`Chunk.body`/`Chunk.count`. -/

inductive Chunk
  | packed (units : List (List Char)) (count : Nat)
  | fragment (text : List Char) (count : Nat)
deriving DecidableEq, Repr

/-- The token total pushed onto `tokenCounts` for this chunk. -/
def Chunk.count : Chunk → Nat
  | .packed _ n => n
  | .fragment _ n => n

/-- The constituent pieces of a chunk: its units, or its single fragment. -/
def Chunk.pieces : Chunk → List (List Char)
  | .packed us _ => us
  | .fragment s _ => [s]

/-- `current.join(mode === "line" ? "\n" : "\n\n")` — the separator. -/
def Mode.sepOf : Mode → List Char
  | .line => ['\n']
  | _ => ['\n', '\n']

/-- The string pushed onto `chunks` for this chunk. -/
def Chunk.body (sep : List Char) : Chunk → List Char
  | .packed us _ => joinWith sep us
  | .fragment s _ => s

/-- The window-shrinking loop at `splitText.ts:81-83`:
`while (count(slice) > maxTokens && slice.length > 50) slice = slice.slice(0,
floor(slice.length * 0.85))`.  Each pass strictly shrinks the window, so
`fuel := slice.length` always suffices (`shrinkGo_fuel`). -/
def shrinkGo (tc : List Char → Nat) (budget : Nat) : Nat → List Char → List Char
  | 0, s => s
  | fuel + 1, s =>
      if tc s > budget ∧ s.length > 50 then
        shrinkGo tc budget fuel (s.take (s.length * 85 / 100))
      else s

/-- The shrink loop run to completion on a window. -/
def shrinkSlice (tc : List Char → Nat) (budget : Nat) (s : List Char) :
    List Char :=
  shrinkGo tc budget s.length s

/-- The hard-split `while (remaining.length > 0)` loop at
`splitText.ts:75-90`.  Each pass consumes at least one character, so
`fuel := remaining.length` always suffices (`hardGo_fuel`). -/
def hardGo (tc : List Char → Nat) (budget : Nat) : Nat → List Char → List Chunk
  | _, [] => []
  | 0, _ => []
  | fuel + 1, rem =>
      let slice := shrinkSlice tc budget (rem.take (max 50 (budget * 4)))
      Chunk.fragment slice (tc slice) ::
        hardGo tc budget fuel (trimStartL (rem.drop slice.length))

/-- Hard-split an oversized unit into standalone fragment chunks. -/
def hardSplit (tc : List Char → Nat) (budget : Nat) (unit : List Char) :
    List Chunk :=
  hardGo tc budget unit.length unit

/-- The greedy packing loop at `splitText.ts:59-112`: `current` is the open
chunk's unit list (reversed), `curT` its running token total. -/
def packGo (tc : List Char → Nat) (budget : Nat) :
    List (List Char) → List (List Char) → Nat → List Chunk
  | [], current, curT =>
      if current = [] then [] else [.packed current.reverse curT]
  | u :: us, current, curT =>
      let ut := tc u
      if ut > budget then
        (if current = [] then [] else [Chunk.packed current.reverse curT]) ++
          hardSplit tc budget u ++ packGo tc budget us [] 0
      else if curT + ut > budget then
        (if current = [] then [] else [Chunk.packed current.reverse curT]) ++
          packGo tc budget us [u] ut
      else packGo tc budget us (u :: current) (curT + ut)

/-- The single error thrown by `splitTextIntoTokenChunks`. -/
inductive TextErr | configurationError
deriving DecidableEq, Repr

/-- `splitTextIntoTokenChunks` (`splitText.ts:41`): check the budget, pick
the segmentation, run the greedy packer. -/
def splitTextIntoTokenChunks (tc : List Char → Nat) (maxTokens : Int)
    (mode : Mode) (text : List Char) : Except TextErr (List Chunk) :=
  if maxTokens ≤ 0 then .error .configurationError
  else .ok (packGo tc maxTokens.toNat (segment mode text) [] 0)


/-! ## The row packer (`src/splitCsv.ts`) -/

/-- The errors thrown by `splitCsvByTokens` (spec §7 names). -/
inductive CsvErr
  | inputNotFound | configurationError | unsupportedMode | missingHeader
deriving DecidableEq, Repr

/-- One written output file: the replicated header, the accumulated raw
rows, and the running token total at flush time. -/
structure Part where
  header : List Char
  rows : List (List Char)
  tokens : Nat
deriving DecidableEq, Repr

/-- `parseCsvLine`'s character loop (`splitCsv.ts:30-52`): `cur` is the
current cell reversed. -/
def cellsGo (delim quote : Char) :
    Bool → List Char → List Char → List (List Char)
  | _, cur, [] => [cur.reverse]
  | inQuotes, cur, [c] =>
      if c = quote then cellsGo delim quote (!inQuotes) cur []
      else if !inQuotes && c = delim then
        cur.reverse :: cellsGo delim quote false [] []
      else cellsGo delim quote inQuotes (c :: cur) []
  | inQuotes, cur, c :: c2 :: cs2 =>
      if c = quote then
        if inQuotes && c2 = quote then
          cellsGo delim quote true (quote :: cur) cs2
        else cellsGo delim quote (!inQuotes) cur (c2 :: cs2)
      else if !inQuotes && c = delim then
        cur.reverse :: cellsGo delim quote false [] (c2 :: cs2)
      else cellsGo delim quote inQuotes (c :: cur) (c2 :: cs2)

/-- `parseCsvLine` (`splitCsv.ts:25`). -/
def parseCsvLine (line : List Char) (delim quote : Char) :
    List (List Char) :=
  cellsGo delim quote false [] line

/-- The `tokenMode` option: count the raw line, or the parsed cells. -/
inductive TokenMode | line | cells
deriving DecidableEq, Repr

/-- The text handed to the token counter for a data row
(`splitCsv.ts:129-133`). -/
def rowTextForTokens (tm : TokenMode) (delim quote : Char)
    (line : List Char) : List Char :=
  match tm with
  | .line => line
  | .cells => joinWith (' ' :: '|' :: [' ']) (parseCsvLine line delim quote)

/-- `flushPart` (`splitCsv.ts:101-118`): fails without a header, writes
nothing when no rows are accumulated, otherwise produces the one part
written to disk. -/
def flushPart (header : Option (List Char)) (cur : List (List Char))
    (curT : Nat) : Except CsvErr (List Part) :=
  match header with
  | none => .error .missingHeader
  | some h => if cur = [] then .ok [] else .ok [⟨h, cur.reverse, curT⟩]

/-- The `for await (const line of rl)` loop plus final flush
(`splitCsv.ts:120-158`): `cur` is the open part's row list (reversed),
`curT` its running total, `parts` the parts flushed so far. -/
def csvGo (tc : List Char → Nat) (budget : Nat) (tm : TokenMode)
    (delim quote : Char) :
    List (List Char) → Option (List Char) → List (List Char) → Nat →
      List Part → Except CsvErr (List Part)
  | [], header, cur, curT, parts => do
      let p ← flushPart header cur curT
      pure (parts ++ p)
  | l :: ls, header, cur, curT, parts =>
      if trimL l = [] then csvGo tc budget tm delim quote ls header cur curT parts
      else
        match header with
        | none => csvGo tc budget tm delim quote ls (some l) cur curT parts
        | some h =>
            let rt := tc (rowTextForTokens tm delim quote l)
            if rt > budget then do
              let p ← flushPart (some h) cur curT
              let p2 ← flushPart (some h) [l] rt
              csvGo tc budget tm delim quote ls (some h) [] 0 (parts ++ p ++ p2)
            else if curT + rt > budget then do
              let p ← flushPart (some h) cur curT
              csvGo tc budget tm delim quote ls (some h) [l] rt (parts ++ p)
            else csvGo tc budget tm delim quote ls (some h) (l :: cur) (curT + rt) parts

/-- `splitCsvByTokens` (`splitCsv.ts:58`), with the file system abstracted:
`inputExists` stands for `fs.existsSync(inputPath)`, the streamed lines are
given as a list, and the returned list holds the parts that were written,
in order. The guard order (existence, then budget, then multiline support)
is the source's. -/
def splitCsvByTokens (tc : List Char → Nat) (maxTokens : Int) (tm : TokenMode)
    (delim quote : Char) (assumeNoMultilineFields : Bool) (inputExists : Bool)
    (lines : List (List Char)) : Except CsvErr (List Part) :=
  if !inputExists then .error .inputNotFound
  else if maxTokens ≤ 0 then .error .configurationError
  else if !assumeNoMultilineFields then .error .unsupportedMode
  else csvGo tc maxTokens.toNat tm delim quote lines none [] 0 []


/-! ## Sanity checks: concrete evaluations of the embedding -/

example : approximateTokenCount "Hello, world!".toList = 5 := by decide
example : specApproximateTokenCount "Hello, world!".toList = 5 := by decide
example : approximateTokenCount "   ".toList = 0 := by decide
example : approximateTokenCount "  a  b ".toList = 1 := by decide
example : specApproximateTokenCount "  a  b ".toList = 1 := by decide
example : splitIntoSentences "Hi. There you are! Ok?".toList =
    ["Hi.".toList, "There you are!".toList, "Ok?".toList] := by decide
example : splitIntoSentences "e.g. so, i.e. thus.".toList =
    ["e.g. so, i.e. thus.".toList] := by decide
example : splitIntoParagraphs "a\r\nb\n\n\nc\n".toList =
    ["a\nb".toList, "c".toList] := by decide
example : splitIntoLines "a \n\nb\n".toList = ["a".toList, "b".toList] := by
  decide
example : splitIntoParagraphs "  \n \n ".toList = [[]] := by decide
example : splitIntoLines "".toList = [[]] := by decide
example : splitIntoSentences " \t ".toList = [[]] := by decide
example :
    splitTextIntoTokenChunks approximateTokenCount 4 .paragraph
      "one one\n\ntwo two\n\nthree".toList =
    .ok [.packed ["one one".toList, "two two".toList] 4,
         .packed ["three".toList] 2] := by decide
example :
    splitTextIntoTokenChunks approximateTokenCount 0 .paragraph "x".toList =
    .error .configurationError := by decide
example :
    splitCsvByTokens (fun l => l.length) 25 .line ',' '"' true true
      ["a,b".toList, "row1-------".toList, "row2-------".toList,
       "row3-------".toList, "".toList, "row4-------".toList,
       "row5-------".toList] =
    .ok [⟨"a,b".toList, ["row1-------".toList, "row2-------".toList], 22⟩,
         ⟨"a,b".toList, ["row3-------".toList, "row4-------".toList], 22⟩,
         ⟨"a,b".toList, ["row5-------".toList], 11⟩] := by decide
example : parseCsvLine "a,\"b,\"\"c\",d".toList ',' '"' =
    ["a".toList, "b,\"c".toList, "d".toList] := by decide

/-! ## Helper lemmas -/

theorem dropWhile_length_le (p : Char → Bool) :
    ∀ l : List Char, (l.dropWhile p).length ≤ l.length := by
  intro l
  induction l with
  | nil => simp
  | cons c cs ih =>
      by_cases h : p c
      · simp [List.dropWhile_cons, h]; omega
      · simp [List.dropWhile_cons, h]

theorem trimStartL_length_le (l : List Char) :
    (trimStartL l).length ≤ l.length :=
  dropWhile_length_le isWs l

theorem shrink_step_lt {n : Nat} (h : 50 < n) : n * 85 / 100 < n := by
  have : n * 85 / 100 ≤ n * 85 / 100 := le_refl _
  have h1 : n * 85 < n * 100 := by omega
  calc n * 85 / 100 ≤ n * 85 / 100 := le_refl _
    _ < n := Nat.div_lt_of_lt_mul (by omega)

/-- The shrink loop's result does not depend on the fuel, once the fuel is
at least the window length. -/
theorem shrinkGo_fuel (tc : List Char → Nat) (budget : Nat) :
    ∀ f₁ f₂ (s : List Char), s.length ≤ f₁ → s.length ≤ f₂ →
      shrinkGo tc budget f₁ s = shrinkGo tc budget f₂ s := by
  intro f₁
  induction f₁ with
  | zero =>
      intro f₂ s h1 h2
      have hs : s = [] := List.eq_nil_of_length_eq_zero (by omega)
      subst hs
      cases f₂ <;> simp [shrinkGo]
  | succ a ih =>
      intro f₂ s h1 h2
      cases f₂ with
      | zero =>
          have hs : s = [] := List.eq_nil_of_length_eq_zero (by omega)
          subst hs
          simp [shrinkGo]
      | succ b =>
          by_cases hc : tc s > budget ∧ s.length > 50
          · have hlt : s.length * 85 / 100 < s.length := shrink_step_lt hc.2
            have htk : (s.take (s.length * 85 / 100)).length = s.length * 85 / 100 := by
              simp [List.length_take]; omega
            simp only [shrinkGo, if_pos hc]
            exact ih b _ (by omega) (by omega)
          · simp only [shrinkGo, if_neg hc]

theorem shrinkSlice_eq_fuel (tc : List Char → Nat) (budget : Nat)
    (f : Nat) (s : List Char) (h : s.length ≤ f) :
    shrinkGo tc budget f s = shrinkSlice tc budget s :=
  shrinkGo_fuel tc budget f s.length s h (le_refl _)

/-- What the shrink loop guarantees on exit: the window either fits the
budget or has reached the 50-character floor. -/
theorem shrinkGo_post (tc : List Char → Nat) (budget : Nat) :
    ∀ f (s : List Char), s.length ≤ f →
      tc (shrinkGo tc budget f s) ≤ budget ∨
        (shrinkGo tc budget f s).length ≤ 50 := by
  intro f
  induction f with
  | zero =>
      intro s h
      have hs : s = [] := List.eq_nil_of_length_eq_zero (by omega)
      subst hs
      simp [shrinkGo]
  | succ a ih =>
      intro s h
      by_cases hc : tc s > budget ∧ s.length > 50
      · have hlt : s.length * 85 / 100 < s.length := shrink_step_lt hc.2
        have htk : (s.take (s.length * 85 / 100)).length = s.length * 85 / 100 := by
          simp [List.length_take]; omega
        simp only [shrinkGo, if_pos hc]
        exact ih _ (by omega)
      · simp only [shrinkGo, if_neg hc]
        omega

theorem shrinkSlice_post (tc : List Char → Nat) (budget : Nat)
    (s : List Char) :
    tc (shrinkSlice tc budget s) ≤ budget ∨
      (shrinkSlice tc budget s).length ≤ 50 :=
  shrinkGo_post tc budget s.length s (le_refl _)

/-- The shrink loop never empties a non-empty window. -/
theorem shrinkGo_ne_nil (tc : List Char → Nat) (budget : Nat) :
    ∀ f (s : List Char), s ≠ [] → shrinkGo tc budget f s ≠ [] := by
  intro f
  induction f with
  | zero => intro s hs; simpa [shrinkGo] using hs
  | succ a ih =>
      intro s hs
      by_cases hc : tc s > budget ∧ s.length > 50
      · simp only [shrinkGo, if_pos hc]
        apply ih
        intro hnil
        have hlen0 : (s.take (s.length * 85 / 100)).length = 0 := by
          rw [hnil]; rfl
        rw [List.length_take] at hlen0
        have h50 := hc.2
        omega
      · simpa [shrinkGo, if_neg hc] using hs

theorem shrinkSlice_ne_nil (tc : List Char → Nat) (budget : Nat)
    (s : List Char) (hs : s ≠ []) : shrinkSlice tc budget s ≠ [] :=
  shrinkGo_ne_nil tc budget s.length s hs

/-- The shrink loop returns a prefix of its input, hence never grows it. -/
theorem shrinkGo_length_le (tc : List Char → Nat) (budget : Nat) :
    ∀ f (s : List Char), (shrinkGo tc budget f s).length ≤ s.length := by
  intro f
  induction f with
  | zero => intro s; simp [shrinkGo]
  | succ a ih =>
      intro s
      by_cases hc : tc s > budget ∧ s.length > 50
      · simp only [shrinkGo, if_pos hc]
        calc (shrinkGo tc budget a (s.take (s.length * 85 / 100))).length
            ≤ (s.take (s.length * 85 / 100)).length := ih _
          _ ≤ s.length := by simp [List.length_take]
      · simp [shrinkGo, if_neg hc]

/-- The hard-split loop's result does not depend on the fuel, once the fuel
is at least the remaining length. -/
theorem hardGo_fuel (tc : List Char → Nat) (budget : Nat) :
    ∀ f₁ f₂ (rem : List Char), rem.length ≤ f₁ → rem.length ≤ f₂ →
      hardGo tc budget f₁ rem = hardGo tc budget f₂ rem := by
  intro f₁
  induction f₁ with
  | zero =>
      intro f₂ rem h1 h2
      have hs : rem = [] := List.eq_nil_of_length_eq_zero (by omega)
      subst hs
      cases f₂ <;> simp [hardGo]
  | succ a ih =>
      intro f₂ rem h1 h2
      cases rem with
      | nil => cases f₂ <;> simp [hardGo]
      | cons c cs =>
          cases f₂ with
          | zero => simp at h2
          | succ b =>
              simp only [hardGo]
              congr 1
              set slice :=
                shrinkSlice tc budget ((c :: cs).take (max 50 (budget * 4))) with hsl
              have hne : slice ≠ [] := by
                apply shrinkSlice_ne_nil
                simp [List.take_eq_nil_iff]
              have hlen : 1 ≤ slice.length := by
                cases hsl' : slice with
                | nil => exact absurd hsl' hne
                | cons x xs => simp
              have hdrop : ((c :: cs).drop slice.length).length ≤ cs.length := by
                simp [List.length_drop]; omega
              have htrim :
                  (trimStartL ((c :: cs).drop slice.length)).length ≤ cs.length :=
                le_trans (trimStartL_length_le _) hdrop
              exact ih b _ (by simp at h1; omega) (by simp at h2; omega)

theorem hardSplit_eq_fuel (tc : List Char → Nat) (budget : Nat)
    (f : Nat) (rem : List Char) (h : rem.length ≤ f) :
    hardGo tc budget f rem = hardSplit tc budget rem :=
  hardGo_fuel tc budget f rem.length rem h (le_refl _)

/-- One pass of the hard-split `while` loop, as the source performs it:
window guess, shrink, emit, advance past the window left-trimming. -/
theorem hardSplit_unfold (tc : List Char → Nat) (budget : Nat)
    (rem : List Char) (h : rem ≠ []) :
    hardSplit tc budget rem =
      (fun slice => Chunk.fragment slice (tc slice) ::
          hardSplit tc budget (trimStartL (rem.drop slice.length)))
        (shrinkSlice tc budget (rem.take (max 50 (budget * 4)))) := by
  cases rem with
  | nil => exact absurd rfl h
  | cons c cs =>
      show hardGo tc budget (cs.length + 1) (c :: cs) = _
      simp only [hardGo]
      congr 1
      set slice :=
        shrinkSlice tc budget ((c :: cs).take (max 50 (budget * 4))) with hsl
      have hne : slice ≠ [] := by
        apply shrinkSlice_ne_nil
        simp [List.take_eq_nil_iff]
      have hlen : 1 ≤ slice.length := by
        cases hsl' : slice with
        | nil => exact absurd hsl' hne
        | cons x xs => simp
      have hdrop : ((c :: cs).drop slice.length).length ≤ cs.length := by
        simp [List.length_drop]; omega
      exact hardSplit_eq_fuel tc budget cs.length _
        (le_trans (trimStartL_length_le _) hdrop)

/-- Every chunk the hard-split loop emits is a standalone fragment carrying
its own recount, and the shrink loop's exit condition holds for it. -/
theorem hardGo_mem (tc : List Char → Nat) (budget : Nat) :
    ∀ f (rem : List Char) (ch : Chunk), ch ∈ hardGo tc budget f rem →
      ∃ s, ch = Chunk.fragment s (tc s) ∧ (tc s ≤ budget ∨ s.length ≤ 50) := by
  intro f
  induction f with
  | zero =>
      intro rem ch hch
      cases rem <;> simp [hardGo] at hch
  | succ a ih =>
      intro rem ch hch
      cases rem with
      | nil => simp [hardGo] at hch
      | cons c cs =>
          simp only [hardGo, List.mem_cons] at hch
          rcases hch with hch | hch
          · subst hch
            exact ⟨_, rfl, shrinkSlice_post tc budget _⟩
          · exact ih _ ch hch

theorem hardSplit_mem (tc : List Char → Nat) (budget : Nat)
    (unit : List Char) (ch : Chunk) (hch : ch ∈ hardSplit tc budget unit) :
    ∃ s, ch = Chunk.fragment s (tc s) ∧ (tc s ≤ budget ∨ s.length ≤ 50) :=
  hardGo_mem tc budget unit.length unit ch hch

/-- The budget invariant of the greedy packer: provided the open chunk's
running total respects the budget, every emitted chunk either fits the
budget or is a single over-budget fragment at the 50-character floor. -/
theorem packGo_mem (tc : List Char → Nat) (budget : Nat) :
    ∀ (units : List (List Char)) (current : List (List Char)) (curT : Nat),
      curT ≤ budget →
      ∀ ch ∈ packGo tc budget units current curT,
        ch.count ≤ budget ∨
          (∃ s, ch = Chunk.fragment s (tc s) ∧ tc s > budget ∧
            s.length ≤ 50) := by
  intro units
  induction units with
  | nil =>
      intro current curT hle ch hch
      by_cases hcur : current = []
      · simp [packGo, hcur] at hch
      · simp only [packGo, if_neg hcur, List.mem_singleton] at hch
        subst hch
        exact Or.inl hle
  | cons u us ih =>
      intro current curT hle ch hch
      simp only [packGo] at hch
      by_cases h1 : tc u > budget
      · rw [if_pos h1] at hch
        rcases List.mem_append.mp hch with hch | hch
        · rcases List.mem_append.mp hch with hch | hch
          · by_cases hcur : current = []
            · simp [hcur] at hch
            · simp only [if_neg hcur, List.mem_singleton] at hch
              subst hch
              exact Or.inl hle
          · obtain ⟨s, rfl, hdisj⟩ := hardSplit_mem tc budget u ch hch
            by_cases hsb : tc s ≤ budget
            · exact Or.inl hsb
            · rcases hdisj with hdisj | hdisj
              · exact Or.inl hdisj
              · exact Or.inr ⟨s, rfl, by omega, hdisj⟩
        · exact ih [] 0 (Nat.zero_le _) ch hch
      · rw [if_neg h1] at hch
        by_cases h2 : curT + tc u > budget
        · rw [if_pos h2] at hch
          rcases List.mem_append.mp hch with hch | hch
          · by_cases hcur : current = []
            · simp [hcur] at hch
            · simp only [if_neg hcur, List.mem_singleton] at hch
              subst hch
              exact Or.inl hle
          · exact ih [u] (tc u) (by omega) ch hch
        · rw [if_neg h2] at hch
          exact ih (u :: current) (curT + tc u) (by omega) ch hch

/-- The budget invariant of the row packer's loop: provided the running
total respects the budget and the parts already flushed satisfy the
invariant, every part of a successful run either fits the budget or holds
exactly one over-budget row. -/
theorem csvGo_mem (tc : List Char → Nat) (budget : Nat) (tm : TokenMode)
    (delim quote : Char) :
    ∀ (ls : List (List Char)) (header : Option (List Char))
      (cur : List (List Char)) (curT : Nat) (parts res : List Part),
      curT ≤ budget →
      (∀ p ∈ parts, p.tokens ≤ budget ∨
        (∃ r, p.rows = [r] ∧ p.tokens = tc (rowTextForTokens tm delim quote r)
          ∧ p.tokens > budget)) →
      csvGo tc budget tm delim quote ls header cur curT parts = .ok res →
      ∀ p ∈ res, p.tokens ≤ budget ∨
        (∃ r, p.rows = [r] ∧ p.tokens = tc (rowTextForTokens tm delim quote r)
          ∧ p.tokens > budget) := by
  intro ls
  induction ls with
  | nil =>
      intro header cur curT parts res hle hparts hok
      cases header with
      | none => simp [csvGo, flushPart] at hok
      | some h =>
          by_cases hcur : cur = []
          · simp [csvGo, flushPart, hcur] at hok
            subst hok
            simpa using hparts
          · simp [csvGo, flushPart, hcur] at hok
            subst hok
            intro p hp
            rcases List.mem_append.mp hp with hp | hp
            · exact hparts p hp
            · simp at hp
              subst hp
              exact Or.inl hle
  | cons l ls ih =>
      intro header cur curT parts res hle hparts hok
      simp only [csvGo] at hok
      by_cases hbl : trimL l = []
      · rw [if_pos hbl] at hok
        exact ih header cur curT parts res hle hparts hok
      · rw [if_neg hbl] at hok
        cases header with
        | none => exact ih (some l) cur curT parts res hle hparts hok
        | some h =>
            dsimp only at hok
            set rt := tc (rowTextForTokens tm delim quote l) with hrt
            by_cases h1 : rt > budget
            · rw [if_pos h1] at hok
              simp only [flushPart, bind, Except.bind] at hok
              by_cases hcur : cur = []
              · rw [if_pos hcur] at hok
                simp only [Except.ok.injEq] at hok
                simp only [List.append_nil, List.nil_append] at hok
                refine ih (some h) [] 0 _ res (Nat.zero_le _) ?_ hok
                intro p hp
                rcases List.mem_append.mp hp with hp | hp
                · exact hparts p hp
                · simp only [List.mem_singleton] at hp
                  subst hp
                  exact Or.inr ⟨l, rfl, hrt, h1⟩
              · rw [if_neg hcur] at hok
                refine ih (some h) [] 0 _ res (Nat.zero_le _) ?_ hok
                intro p hp
                rcases List.mem_append.mp hp with hp | hp
                · rcases List.mem_append.mp hp with hp | hp
                  · exact hparts p hp
                  · simp only [List.mem_singleton] at hp
                    subst hp
                    exact Or.inl hle
                · simp only [List.mem_singleton] at hp
                  subst hp
                  exact Or.inr ⟨l, rfl, hrt, h1⟩
            · rw [if_neg h1] at hok
              by_cases h2 : curT + rt > budget
              · rw [if_pos h2] at hok
                simp only [flushPart, bind, Except.bind] at hok
                by_cases hcur : cur = []
                · rw [if_pos hcur] at hok
                  simp only [List.append_nil] at hok
                  exact ih (some h) [l] rt parts res (by omega) hparts hok
                · rw [if_neg hcur] at hok
                  refine ih (some h) [l] rt _ res (by omega) ?_ hok
                  intro p hp
                  rcases List.mem_append.mp hp with hp | hp
                  · exact hparts p hp
                  · simp only [List.mem_singleton] at hp
                    subst hp
                    exact Or.inl hle
              · rw [if_neg h2] at hok
                exact ih (some h) (l :: cur) (curT + rt) parts res (by omega)
                  hparts hok

/-- C1: for every input and budget > 0, every emitted chunk (text packer)
and part (row packer) has recorded token total ≤ budget, or else consists
of exactly one atomic piece whose own count exceeds the budget — for the
row packer a single row, for the text packer a single hard-split fragment
already at the 50-character shrink floor (the glossary's "atomic" unit:
never subdivided further for output), counted by its own recount. -/
theorem claim_C1 :
    (∀ (tc : List Char → Nat) (maxTokens : Int) (mode : Mode)
        (text : List Char) (chunks : List Chunk),
      0 < maxTokens →
      splitTextIntoTokenChunks tc maxTokens mode text = .ok chunks →
      ∀ ch ∈ chunks, ch.count ≤ maxTokens.toNat ∨
        (∃ s, ch = Chunk.fragment s (tc s) ∧ tc s > maxTokens.toNat ∧
          s.length ≤ 50)) ∧
    (∀ (tc : List Char → Nat) (maxTokens : Int) (tm : TokenMode)
        (delim quote : Char) (lines : List (List Char)) (parts : List Part),
      0 < maxTokens →
      splitCsvByTokens tc maxTokens tm delim quote true true lines = .ok parts →
      ∀ p ∈ parts, p.tokens ≤ maxTokens.toNat ∨
        (∃ r, p.rows = [r] ∧
          p.tokens = tc (rowTextForTokens tm delim quote r) ∧
          p.tokens > maxTokens.toNat)) := by
  constructor
  · intro tc maxTokens mode text chunks hpos hok
    simp only [splitTextIntoTokenChunks] at hok
    rw [if_neg (by omega)] at hok
    simp only [Except.ok.injEq] at hok
    subst hok
    exact packGo_mem tc maxTokens.toNat (segment mode text) [] 0 (Nat.zero_le _)
  · intro tc maxTokens tm delim quote lines parts hpos hok
    simp only [splitCsvByTokens, Bool.not_true, Bool.false_eq_true,
      if_false] at hok
    rw [if_neg (by omega)] at hok
    exact csvGo_mem tc maxTokens.toNat tm delim quote lines none [] 0 [] parts
      (Nat.zero_le _) (by intro p hp; simp at hp) hok

theorem claim_C1_witness :
    (∀ ch ∈ [Chunk.fragment "hello, world".toList 4],
        ch.count ≤ (2 : Int).toNat ∨
          (∃ s, ch = Chunk.fragment s (approximateTokenCount s) ∧
            approximateTokenCount s > (2 : Int).toNat ∧ s.length ≤ 50)) ∧
    (∀ p ∈ [({header := "a,b".toList, rows := ["cc".toList], tokens := 1} :
          Part)],
        p.tokens ≤ (1 : Int).toNat ∨
          (∃ r, p.rows = [r] ∧
            p.tokens =
              approximateTokenCount (rowTextForTokens .line ',' '"' r) ∧
            p.tokens > (1 : Int).toNat)) :=
  ⟨claim_C1.1 approximateTokenCount 2 .paragraph "hello, world".toList _
      (by decide) (by decide),
   claim_C1.2 approximateTokenCount 1 .line ',' '"'
      ["a,b".toList, "cc".toList] _ (by decide) (by decide)⟩

/-! ## Whitespace-only inputs and the segmentation fallback -/

theorem trimL_all_ws (l : List Char) (h : ∀ c ∈ l, isWs c = true) :
    trimL l = [] := by
  have hstart : trimStartL l = [] := List.dropWhile_eq_nil_iff.mpr h
  rw [trimL, hstart]
  rfl

theorem trimEndL_all_ws (l : List Char) (h : ∀ c ∈ l, isWs c = true) :
    trimEndL l = [] := by
  have hrev : l.reverse.dropWhile isWs = [] :=
    List.dropWhile_eq_nil_iff.mpr (by simpa using h)
  rw [trimEndL, hrev]
  rfl

theorem normalizeCRLF_ws (l : List Char) (h : ∀ c ∈ l, isWs c = true) :
    ∀ c ∈ normalizeCRLF l, isWs c = true := by
  induction l using normalizeCRLF.induct with
  | case1 =>
      intro c hc
      simp [normalizeCRLF] at hc
  | case2 cs ih =>
      intro c hc
      simp only [normalizeCRLF, List.mem_cons] at hc
      rcases hc with rfl | hc
      · decide
      · exact ih (fun x hx => h x (by simp [hx])) c hc
  | case3 c cs hne ih =>
      intro d hd
      simp only [normalizeCRLF, List.mem_cons] at hd
      rcases hd with rfl | hd
      · exact h d (by simp)
      · exact ih (fun x hx => h x (by simp [hx])) d hd

theorem paraGo_ws :
    ∀ (flag : Bool) (acc rest : List Char),
      (∀ c ∈ rest, isWs c = true) → (∀ c ∈ acc, isWs c = true) →
      ∀ p ∈ paraGo flag acc rest, ∀ c ∈ p, isWs c = true := by
  intro flag acc rest
  induction flag, acc, rest using paraGo.induct with
  | case1 flag acc =>
      intro _ hacc p hp c hc
      simp only [paraGo, List.mem_singleton] at hp
      subst hp
      exact hacc c (by simpa using hc)
  | case2 acc cs ih =>
      intro hrest hacc p hp
      rw [paraGo, if_pos rfl] at hp
      exact ih (fun x hx => hrest x (by simp [hx])) hacc p hp
  | case3 acc c cs hne ih =>
      intro hrest hacc p hp
      rw [paraGo, if_neg hne] at hp
      refine ih (fun x hx => hrest x (by simp [hx])) ?_ p hp
      intro x hx
      rcases List.mem_cons.mp hx with rfl | hx
      · exact hrest x (by simp)
      · exact hacc x hx
  | case4 acc cs ih =>
      intro hrest hacc p hp
      simp only [paraGo, List.mem_cons] at hp
      rcases hp with rfl | hp
      · intro c hc
        exact hacc c (by simpa using hc)
      · exact ih (fun x hx => hrest x (by simp [hx])) (by simp) p hp
  | case5 acc c cs hguard ih =>
      intro hrest hacc p hp
      rw [paraGo] at hp
      · refine ih (fun x hx => hrest x (by simp [hx])) ?_ p hp
        intro x hx
        rcases List.mem_cons.mp hx with rfl | hx
        · exact hrest x (by simp)
        · exact hacc x hx
      · exact hguard

theorem lineGo_ws :
    ∀ (rest acc : List Char),
      (∀ c ∈ rest, isWs c = true) → (∀ c ∈ acc, isWs c = true) →
      ∀ p ∈ lineGo acc rest, ∀ c ∈ p, isWs c = true := by
  intro rest
  induction rest with
  | nil =>
      intro acc _ hacc p hp c hc
      simp only [lineGo, List.mem_singleton] at hp
      subst hp
      exact hacc c (by simpa using hc)
  | cons d ds ih =>
      intro acc hrest hacc p hp
      rw [lineGo] at hp
      by_cases hd : d = '\n'
      · rw [if_pos hd] at hp
        rcases List.mem_cons.mp hp with rfl | hp
        · intro c hc
          exact hacc c (by simpa using hc)
        · exact ih [] (fun x hx => hrest x (by simp [hx])) (by simp) p hp
      · rw [if_neg hd] at hp
        refine ih (d :: acc) (fun x hx => hrest x (by simp [hx])) ?_ p hp
        intro x hx
        rcases List.mem_cons.mp hx with rfl | hx
        · exact hrest x (by simp)
        · exact hacc x hx

theorem sentGo_ws :
    ∀ (prev : Option Char) (acc pend rest : List Char),
      (∀ c ∈ rest, isWs c = true) → (∀ c ∈ acc, isWs c = true) →
      (∀ c ∈ pend, isWs c = true) →
      ∀ p ∈ sentGo prev acc pend rest, ∀ c ∈ p, isWs c = true := by
  intro prev acc pend rest
  induction prev, acc, pend, rest using sentGo.induct with
  | case1 prev acc pend =>
      intro _ hacc hpend p hp c hc
      simp only [sentGo, List.mem_singleton] at hp
      subst hp
      rcases (by simpa using hc : c ∈ acc ∨ c ∈ pend) with hc | hc
      · exact hacc c hc
      · exact hpend c hc
  | case2 prev acc c cs hcond ih =>
      intro hrest hacc _ p hp
      rw [sentGo, if_pos rfl, if_pos hcond] at hp
      refine ih (fun x hx => hrest x (by simp [hx])) hacc ?_ p hp
      intro x hx
      rcases List.mem_singleton.mp hx with rfl
      exact hrest x (by simp)
  | case3 prev acc c cs hcond ih =>
      intro hrest hacc _ p hp
      rw [sentGo, if_pos rfl, if_neg hcond] at hp
      refine ih (fun x hx => hrest x (by simp [hx])) ?_ (by simp) p hp
      intro x hx
      rcases List.mem_cons.mp hx with rfl | hx
      · exact hrest x (by simp)
      · exact hacc x hx
  | case4 prev acc pend c cs hpe hwc ih =>
      intro hrest hacc hpend p hp
      rw [sentGo, if_neg hpe, if_pos hwc] at hp
      refine ih (fun x hx => hrest x (by simp [hx])) hacc ?_ p hp
      intro x hx
      rcases List.mem_cons.mp hx with rfl | hx
      · exact hrest x (by simp)
      · exact hpend x hx
  | case5 prev acc pend c cs hpe hwc hss ih =>
      intro hrest hacc hpend p hp
      exact absurd (hrest c (by simp)) (by simpa using hwc)
  | case6 prev acc pend c cs hpe hwc hss ih =>
      intro hrest hacc hpend p hp
      exact absurd (hrest c (by simp)) (by simpa using hwc)

theorem paragraphParts_ws (text : List Char)
    (h : ∀ c ∈ text, isWs c = true) : paragraphParts text = [] := by
  apply List.filter_eq_nil_iff.mpr
  intro x hx
  simp only [List.mem_map] at hx
  obtain ⟨p, hp, rfl⟩ := hx
  have hws := paraGo_ws false [] (normalizeCRLF text)
    (normalizeCRLF_ws text h) (by simp) p hp
  simp [trimL_all_ws p hws]

theorem sentenceParts_ws (text : List Char)
    (h : ∀ c ∈ text, isWs c = true) : sentenceParts text = [] := by
  apply List.filter_eq_nil_iff.mpr
  intro x hx
  simp only [List.mem_map] at hx
  obtain ⟨p, hp, rfl⟩ := hx
  have hws := sentGo_ws none [] [] (normalizeCRLF text)
    (normalizeCRLF_ws text h) (by simp) (by simp) p hp
  simp [trimL_all_ws p hws]

theorem lineParts_ws (text : List Char)
    (h : ∀ c ∈ text, isWs c = true) : lineParts text = [] := by
  apply List.filter_eq_nil_iff.mpr
  intro x hx
  simp only [List.mem_map] at hx
  obtain ⟨p, hp, rfl⟩ := hx
  have hws := lineGo_ws (normalizeCRLF text) []
    (normalizeCRLF_ws text h) (by simp) p hp
  simp [trimEndL_all_ws p hws]

theorem segmentParts_ws (mode : Mode) (text : List Char)
    (h : ∀ c ∈ text, isWs c = true) : segmentParts mode text = [] := by
  cases mode with
  | paragraph => exact paragraphParts_ws text h
  | sentence => exact sentenceParts_ws text h
  | line => exact lineParts_ws text h

theorem segment_ws (mode : Mode) (text : List Char)
    (h : ∀ c ∈ text, isWs c = true) : segment mode text = [[]] := by
  have htrim := trimL_all_ws text h
  cases mode with
  | paragraph =>
      have hp := paragraphParts_ws text h
      simp [segment, splitIntoParagraphs, hp, htrim]
  | sentence =>
      have hp := sentenceParts_ws text h
      simp [segment, splitIntoSentences, hp, htrim]
  | line =>
      have hp := lineParts_ws text h
      simp [segment, splitIntoLines, hp, htrim]

/-- C6: for each of the three strategies, whenever splitting, trimming and
dropping empties yields an empty sequence, the segmenter falls back to a
single unit equal to the trimmed whole input; for empty or whitespace-only
input that single unit is the empty string. -/
theorem claim_C6 (mode : Mode) (t₁ t₂ : List Char)
    (h₁ : segmentParts mode t₁ = [])
    (h₂ : ∀ c ∈ t₂, isWs c = true) :
    segment mode t₁ = [trimL t₁] ∧ segment mode t₂ = [[]] := by
  constructor
  · cases mode with
    | paragraph =>
        simp only [segmentParts] at h₁
        simp [segment, splitIntoParagraphs, h₁]
    | sentence =>
        simp only [segmentParts] at h₁
        simp [segment, splitIntoSentences, h₁]
    | line =>
        simp only [segmentParts] at h₁
        simp [segment, splitIntoLines, h₁]
  · exact segment_ws mode t₂ h₂

theorem claim_C6_witness :
    segment .sentence "".toList = [trimL "".toList] ∧
      segment .sentence " \t".toList = [[]] :=
  claim_C6 .sentence "".toList " \t".toList (by decide) (by decide)

/-- C9: for empty or whitespace-only text and a positive budget, the text
chunker succeeds with exactly one chunk, whose body is the empty string and
whose recorded token count is 0 (for any counter assigning 0 to empty
text, as both the exact and the approximate counter do). -/
theorem claim_C9 (tc : List Char → Nat) (maxTokens : Int) (mode : Mode)
    (text : List Char) (hpos : 0 < maxTokens)
    (hws : ∀ c ∈ text, isWs c = true) (hemp : tc [] = 0) :
    splitTextIntoTokenChunks tc maxTokens mode text =
      .ok [Chunk.packed [[]] 0] ∧
    Chunk.body mode.sepOf (Chunk.packed [[]] 0) = [] ∧
    Chunk.count (Chunk.packed [[]] 0) = 0 := by
  refine ⟨?_, by cases mode <;> rfl, rfl⟩
  simp only [splitTextIntoTokenChunks]
  rw [if_neg (by omega), segment_ws mode text hws]
  simp [packGo, hemp]

theorem claim_C9_witness :
    splitTextIntoTokenChunks approximateTokenCount 7 .line "\r\n \t".toList =
      .ok [Chunk.packed [[]] 0] ∧
    Chunk.body Mode.line.sepOf (Chunk.packed [[]] 0) = [] ∧
    Chunk.count (Chunk.packed [[]] 0) = 0 :=
  claim_C9 approximateTokenCount 7 .line "\r\n \t".toList (by decide)
    (by decide) (by decide)

/-! ## Error-path claims: budget guard ordering, missing header -/

/-- C4, refuted as stated: with budget 0 and a non-existent input path, the
row packer raises InputNotFound, not ConfigurationError — the
`fs.existsSync` check (I/O) at `splitCsv.ts:74` runs before the budget
guard at `splitCsv.ts:76`. -/
theorem claim_C4_counterexample :
    splitCsvByTokens approximateTokenCount 0 .line ',' '"' true false
        ["a,b".toList] = .error CsvErr.inputNotFound ∧
      CsvErr.inputNotFound ≠ CsvErr.configurationError := by
  decide

/-- C4 (amended): with budget ≤ 0, the text chunker always fails with
ConfigurationError, and the row packer fails with ConfigurationError
provided the input path exists; the error is raised before any
segmentation, token counting, directory creation or stream reading, as
witnessed by the result's independence from the text/lines and the
counter, and by its precedence over the unsupported-multiline guard. -/
theorem claim_C4 (tc : List Char → Nat) (maxTokens : Int) (mode : Mode)
    (text : List Char) (tm : TokenMode) (delim quote : Char) (multi : Bool)
    (lines : List (List Char)) (hneg : maxTokens ≤ 0) :
    splitTextIntoTokenChunks tc maxTokens mode text =
      .error TextErr.configurationError ∧
    splitCsvByTokens tc maxTokens tm delim quote multi true lines =
      .error CsvErr.configurationError := by
  constructor
  · simp [splitTextIntoTokenChunks, hneg]
  · simp [splitCsvByTokens, hneg]

theorem claim_C4_witness :
    splitTextIntoTokenChunks approximateTokenCount (-3) .sentence
        "Hello there.".toList = .error TextErr.configurationError ∧
    splitCsvByTokens approximateTokenCount (-3) .cells ',' '"' false true
        ["a,b".toList, "1,2".toList] = .error CsvErr.configurationError :=
  claim_C4 approximateTokenCount (-3) .sentence "Hello there.".toList
    .cells ',' '"' false ["a,b".toList, "1,2".toList] (by decide)

theorem csvGo_none_all_blank (tc : List Char → Nat) (budget : Nat)
    (tm : TokenMode) (delim quote : Char) :
    ∀ (ls : List (List Char)), (∀ l ∈ ls, trimL l = []) →
      ∀ (cur : List (List Char)) (curT : Nat) (parts : List Part),
        csvGo tc budget tm delim quote ls none cur curT parts =
          .error CsvErr.missingHeader := by
  intro ls
  induction ls with
  | nil =>
      intro _ cur curT parts
      simp [csvGo, flushPart, bind, Except.bind]
  | cons l ls ih =>
      intro hbl cur curT parts
      have hl : trimL l = [] := hbl l (by simp)
      simp only [csvGo, if_pos hl]
      exact ih (fun x hx => hbl x (by simp [hx])) cur curT parts

/-- C5: a tabular stream with no non-blank lines at all fails with
MissingHeader at the final flush, and more generally any flush attempted
before a header has been captured fails with MissingHeader. -/
theorem claim_C5 (tc : List Char → Nat) (maxTokens : Int) (tm : TokenMode)
    (delim quote : Char) (lines cur : List (List Char)) (curT : Nat)
    (hpos : 0 < maxTokens) (hblank : ∀ l ∈ lines, trimL l = []) :
    splitCsvByTokens tc maxTokens tm delim quote true true lines =
      .error CsvErr.missingHeader ∧
    flushPart none cur curT = .error CsvErr.missingHeader := by
  constructor
  · simp only [splitCsvByTokens, Bool.not_true, Bool.false_eq_true, if_false]
    rw [if_neg (by omega)]
    exact csvGo_none_all_blank tc maxTokens.toNat tm delim quote lines hblank
      [] 0 []
  · rfl

theorem claim_C5_witness :
    splitCsvByTokens approximateTokenCount 3 .line ',' '"' true true
        ["  ".toList, "".toList, "\t".toList] =
      .error CsvErr.missingHeader ∧
    flushPart none ["x,y".toList] 7 = .error CsvErr.missingHeader :=
  claim_C5 approximateTokenCount 3 .line ',' '"'
    ["  ".toList, "".toList, "\t".toList] ["x,y".toList] 7
    (by decide) (by decide)

theorem csvGo_some_all_blank (tc : List Char → Nat) (budget : Nat)
    (tm : TokenMode) (delim quote : Char) :
    ∀ (ls : List (List Char)), (∀ l ∈ ls, trimL l = []) →
      ∀ (h : List Char) (parts : List Part),
        csvGo tc budget tm delim quote ls (some h) [] 0 parts = .ok parts := by
  intro ls
  induction ls with
  | nil =>
      intro _ h parts
      simp [csvGo, flushPart, bind, Except.bind, pure, Except.pure]
  | cons l ls ih =>
      intro hbl h parts
      have hl : trimL l = [] := hbl l (by simp)
      simp only [csvGo, if_pos hl]
      exact ih (fun x hx => hbl x (by simp [hx])) h parts

/-- C10: a tabular stream whose only non-blank line is the header succeeds
with zero parts and writes no files. -/
theorem claim_C10 (tc : List Char → Nat) (maxTokens : Int) (tm : TokenMode)
    (delim quote : Char) (lines : List (List Char)) (h : List Char)
    (hpos : 0 < maxTokens)
    (hlines : lines.filter (fun l => trimL l ≠ []) = [h]) :
    splitCsvByTokens tc maxTokens tm delim quote true true lines = .ok [] := by
  simp only [splitCsvByTokens, Bool.not_true, Bool.false_eq_true, if_false]
  rw [if_neg (by omega)]
  clear hpos
  induction lines with
  | nil => simp at hlines
  | cons l ls ih =>
      by_cases hl : trimL l = []
      · rw [List.filter_cons_of_neg (by simp [hl])] at hlines
        simp only [csvGo, if_pos hl]
        exact ih hlines
      · rw [List.filter_cons_of_pos (by simp [hl])] at hlines
        simp only [List.cons.injEq] at hlines
        obtain ⟨rfl, hrest⟩ := hlines
        simp only [csvGo, if_neg hl]
        exact csvGo_some_all_blank tc maxTokens.toNat tm delim quote ls
          (by simpa using List.filter_eq_nil_iff.mp hrest) l []

theorem claim_C10_witness :
    splitCsvByTokens approximateTokenCount 9 .line ',' '"' true true
        ["".toList, "a,b,c".toList, "  ".toList] = .ok [] :=
  claim_C10 approximateTokenCount 9 .line ',' '"'
    ["".toList, "a,b,c".toList, "  ".toList] "a,b,c".toList
    (by decide) (by decide)

/-! ## The hard-split loop (C7) -/

/-- While the window is over budget and longer than 50 characters, the
shrink loop cuts it to `floor(85%)` of its length. -/
theorem shrinkSlice_step (tc : List Char → Nat) (budget : Nat)
    (s : List Char) (h : tc s > budget ∧ s.length > 50) :
    shrinkSlice tc budget s =
      shrinkSlice tc budget (s.take (s.length * 85 / 100)) := by
  have hlt : s.length * 85 / 100 < s.length := shrink_step_lt h.2
  have htk : (s.take (s.length * 85 / 100)).length = s.length * 85 / 100 := by
    simp [List.length_take]; omega
  obtain ⟨m, hm⟩ : ∃ m, s.length = m + 1 := ⟨s.length - 1, by omega⟩
  have hlhs : shrinkSlice tc budget s = shrinkGo tc budget (m + 1) s := by
    rw [shrinkSlice, hm]
  rw [hlhs]
  simp only [shrinkGo, if_pos h]
  exact shrinkSlice_eq_fuel tc budget m (s.take (s.length * 85 / 100))
    (by omega)

/-- Once the window fits the budget or has at most 50 characters, the
shrink loop stops and returns it unchanged. -/
theorem shrinkSlice_done (tc : List Char → Nat) (budget : Nat)
    (t : List Char) (h : ¬(tc t > budget ∧ t.length > 50)) :
    shrinkSlice tc budget t = t := by
  show shrinkGo tc budget t.length t = t
  cases hfuel : t.length with
  | zero => simp [shrinkGo]
  | succ m => simp only [shrinkGo, if_neg h]

/-- C7: the hard-split loop follows the source's steps exactly — take a
`max(50, budget*4)`-character window, shrink it by `floor(85%)` while it is
over budget and longer than 50 characters (`s` stands for any window state
still shrinking, `t` for any window state at exit), emit the final window
as a standalone chunk with its recount, advance past it left-trimming the
remainder — and on a non-empty oversized unit it terminates producing one
or more fragments (the recursion is total and returns a non-empty list). -/
theorem claim_C7 (tc : List Char → Nat) (budget : Nat) (unit s t : List Char)
    (hover : tc unit > budget) (hne : unit ≠ [])
    (hs : tc s > budget ∧ s.length > 50)
    (ht : ¬(tc t > budget ∧ t.length > 50)) :
    (hardSplit tc budget unit =
      (fun slice => Chunk.fragment slice (tc slice) ::
          hardSplit tc budget (trimStartL (unit.drop slice.length)))
        (shrinkSlice tc budget (unit.take (max 50 (budget * 4))))) ∧
    hardSplit tc budget unit ≠ [] ∧
    shrinkSlice tc budget s =
      shrinkSlice tc budget (s.take (s.length * 85 / 100)) ∧
    shrinkSlice tc budget t = t := by
  refine ⟨hardSplit_unfold tc budget unit hne, ?_,
    shrinkSlice_step tc budget s hs, shrinkSlice_done tc budget t ht⟩
  rw [hardSplit_unfold tc budget unit hne]
  simp

theorem claim_C7_witness :
    (hardSplit approximateTokenCount 2 "hello, world".toList =
      (fun slice => Chunk.fragment slice (approximateTokenCount slice) ::
          hardSplit approximateTokenCount 2
            (trimStartL ("hello, world".toList.drop slice.length)))
        (shrinkSlice approximateTokenCount 2
          ("hello, world".toList.take (max 50 (2 * 4))))) ∧
    hardSplit approximateTokenCount 2 "hello, world".toList ≠ [] ∧
    shrinkSlice approximateTokenCount 2 (List.replicate 60 'a') =
      shrinkSlice approximateTokenCount 2
        ((List.replicate 60 'a').take ((List.replicate 60 'a').length * 85 / 100)) ∧
    shrinkSlice approximateTokenCount 2 "hi, you".toList = "hi, you".toList :=
  claim_C7 approximateTokenCount 2 "hello, world".toList
    (List.replicate 60 'a') "hi, you".toList
    (by decide) (by decide) (by decide) (by decide)

/-! ## Order preservation (C2, C8) -/

/-- With no oversized units, the packer's chunks partition the unit list:
concatenating their constituent units reproduces it exactly. -/
theorem packGo_pieces (tc : List Char → Nat) (budget : Nat) :
    ∀ (units current : List (List Char)) (curT : Nat),
      (∀ u ∈ units, tc u ≤ budget) →
      (packGo tc budget units current curT).flatMap Chunk.pieces =
        current.reverse ++ units := by
  intro units
  induction units with
  | nil =>
      intro current curT _
      by_cases hcur : current = []
      · simp [packGo, hcur]
      · simp [packGo, hcur, Chunk.pieces]
  | cons u us ih =>
      intro current curT h
      have hu : tc u ≤ budget := h u (by simp)
      simp only [packGo]
      rw [if_neg (by omega)]
      by_cases h2 : curT + tc u > budget
      · rw [if_pos h2, List.flatMap_append,
          ih [u] (tc u) (fun x hx => h x (by simp [hx]))]
        by_cases hcur : current = []
        · simp [hcur]
        · simp [hcur, Chunk.pieces]
      · rw [if_neg h2, ih (u :: current) (curT + tc u)
          (fun x hx => h x (by simp [hx]))]
        simp

/-- The rows flushed by the row packer's loop, concatenated, extend the
already-flushed rows with the open part and every further non-blank line. -/
theorem csvGo_some_rows (tc : List Char → Nat) (budget : Nat)
    (tm : TokenMode) (delim quote : Char) :
    ∀ (ls : List (List Char)) (h : List Char) (cur : List (List Char))
      (curT : Nat) (parts res : List Part),
      csvGo tc budget tm delim quote ls (some h) cur curT parts = .ok res →
      res.flatMap Part.rows =
        parts.flatMap Part.rows ++ cur.reverse ++
          ls.filter (fun l => trimL l ≠ []) := by
  intro ls
  induction ls with
  | nil =>
      intro h cur curT parts res hok
      by_cases hcur : cur = []
      · simp [csvGo, flushPart, hcur, bind, Except.bind, pure, Except.pure]
          at hok
        subst hok
        simp [hcur]
      · simp [csvGo, flushPart, hcur, bind, Except.bind, pure, Except.pure]
          at hok
        subst hok
        simp [hcur]
  | cons l ls ih =>
      intro h cur curT parts res hok
      simp only [csvGo] at hok
      by_cases hbl : trimL l = []
      · rw [if_pos hbl] at hok
        rw [List.filter_cons_of_neg (by simp [hbl])]
        exact ih h cur curT parts res hok
      · rw [if_neg hbl] at hok
        rw [List.filter_cons_of_pos (by simp [hbl])]
        set rt := tc (rowTextForTokens tm delim quote l) with hrt
        by_cases h1 : rt > budget
        · rw [if_pos h1] at hok
          simp only [flushPart, bind, Except.bind] at hok
          by_cases hcur : cur = []
          · rw [if_pos hcur] at hok
            rw [ih h [] 0 _ res hok]
            simp [hcur]
          · rw [if_neg hcur] at hok
            rw [ih h [] 0 _ res hok]
            simp
        · rw [if_neg h1] at hok
          by_cases h2 : curT + rt > budget
          · rw [if_pos h2] at hok
            simp only [flushPart, bind, Except.bind] at hok
            by_cases hcur : cur = []
            · rw [if_pos hcur] at hok
              rw [ih h [l] rt _ res hok]
              simp [hcur]
            · rw [if_neg hcur] at hok
              rw [ih h [l] rt _ res hok]
              simp
          · rw [if_neg h2] at hok
            rw [ih h (l :: cur) (curT + rt) parts res hok]
            simp

/-- From the start of the stream: the rows of all parts of a successful
run are exactly the non-blank lines after the first (the header). -/
theorem csvGo_none_rows (tc : List Char → Nat) (budget : Nat)
    (tm : TokenMode) (delim quote : Char) :
    ∀ (ls : List (List Char)) (res : List Part),
      csvGo tc budget tm delim quote ls none [] 0 [] = .ok res →
      res.flatMap Part.rows = (ls.filter (fun l => trimL l ≠ [])).drop 1 := by
  intro ls
  induction ls with
  | nil =>
      intro res hok
      simp [csvGo, flushPart, bind, Except.bind] at hok
  | cons l ls ih =>
      intro res hok
      simp only [csvGo] at hok
      by_cases hbl : trimL l = []
      · rw [if_pos hbl] at hok
        rw [List.filter_cons_of_neg (by simp [hbl])]
        exact ih res hok
      · rw [if_neg hbl] at hok
        rw [List.filter_cons_of_pos (by simp [hbl])]
        simpa using csvGo_some_rows tc budget tm delim quote ls l [] 0 [] res
          hok

/-- Every part flushed with header `h` carries header `h`. -/
theorem csvGo_some_header (tc : List Char → Nat) (budget : Nat)
    (tm : TokenMode) (delim quote : Char) :
    ∀ (ls : List (List Char)) (h : List Char) (cur : List (List Char))
      (curT : Nat) (parts res : List Part),
      csvGo tc budget tm delim quote ls (some h) cur curT parts = .ok res →
      ∀ p ∈ res, p ∈ parts ∨ p.header = h := by
  intro ls
  induction ls with
  | nil =>
      intro h cur curT parts res hok
      by_cases hcur : cur = []
      · simp [csvGo, flushPart, hcur, bind, Except.bind, pure, Except.pure]
          at hok
        subst hok
        exact fun p hp => Or.inl hp
      · simp [csvGo, flushPart, hcur, bind, Except.bind, pure, Except.pure]
          at hok
        subst hok
        intro p hp
        rcases List.mem_append.mp hp with hp | hp
        · exact Or.inl hp
        · simp only [List.mem_singleton] at hp
          subst hp
          exact Or.inr rfl
  | cons l ls ih =>
      intro h cur curT parts res hok
      simp only [csvGo] at hok
      by_cases hbl : trimL l = []
      · rw [if_pos hbl] at hok
        exact ih h cur curT parts res hok
      · rw [if_neg hbl] at hok
        set rt := tc (rowTextForTokens tm delim quote l) with hrt
        by_cases h1 : rt > budget
        · rw [if_pos h1] at hok
          simp only [flushPart, bind, Except.bind] at hok
          by_cases hcur : cur = []
          · rw [if_pos hcur] at hok
            intro p hp
            rcases ih h [] 0 _ res hok p hp with hp' | hp'
            · rcases List.mem_append.mp hp' with hp' | hp'
              · exact Or.inl (by simpa using hp')
              · simp only [List.mem_singleton] at hp'
                subst hp'
                exact Or.inr rfl
            · exact Or.inr hp'
          · rw [if_neg hcur] at hok
            intro p hp
            rcases ih h [] 0 _ res hok p hp with hp' | hp'
            · rcases List.mem_append.mp hp' with hp' | hp'
              · rcases List.mem_append.mp hp' with hp' | hp'
                · exact Or.inl hp'
                · simp only [List.mem_singleton] at hp'
                  subst hp'
                  exact Or.inr rfl
              · simp only [List.mem_singleton] at hp'
                subst hp'
                exact Or.inr rfl
            · exact Or.inr hp'
        · rw [if_neg h1] at hok
          by_cases h2 : curT + rt > budget
          · rw [if_pos h2] at hok
            simp only [flushPart, bind, Except.bind] at hok
            by_cases hcur : cur = []
            · rw [if_pos hcur] at hok
              intro p hp
              rcases ih h [l] rt _ res hok p hp with hp' | hp'
              · exact Or.inl (by simpa using hp')
              · exact Or.inr hp'
            · rw [if_neg hcur] at hok
              intro p hp
              rcases ih h [l] rt _ res hok p hp with hp' | hp'
              · rcases List.mem_append.mp hp' with hp' | hp'
                · exact Or.inl hp'
                · simp only [List.mem_singleton] at hp'
                  subst hp'
                  exact Or.inr rfl
              · exact Or.inr hp'
          · rw [if_neg h2] at hok
            exact ih h (l :: cur) (curT + rt) parts res hok

/-- From the start of the stream: every part of a successful run carries
the first non-blank line as its header. -/
theorem csvGo_none_header (tc : List Char → Nat) (budget : Nat)
    (tm : TokenMode) (delim quote : Char) :
    ∀ (ls : List (List Char)) (res : List Part),
      csvGo tc budget tm delim quote ls none [] 0 [] = .ok res →
      ∀ p ∈ res,
        some p.header = (ls.filter (fun l => trimL l ≠ [])).head? := by
  intro ls
  induction ls with
  | nil =>
      intro res hok
      simp [csvGo, flushPart, bind, Except.bind] at hok
  | cons l ls ih =>
      intro res hok
      simp only [csvGo] at hok
      by_cases hbl : trimL l = []
      · rw [if_pos hbl] at hok
        rw [List.filter_cons_of_neg (by simp [hbl])]
        exact ih res hok
      · rw [if_neg hbl] at hok
        rw [List.filter_cons_of_pos (by simp [hbl])]
        intro p hp
        rcases csvGo_some_header tc budget tm delim quote ls l [] 0 [] res
            hok p hp with hp' | hp'
        · simp at hp'
        · simp [hp']

/-- C2, refuted as stated: with budget 1 and the single 52-character unit
`"a"*50 ++ " b"`, the hard-split fallback emits two fragments whose
concatenated pieces drop the space consumed by the left-trim between
fragments, so the original unit sequence is not reproduced. -/
theorem claim_C2_counterexample :
    splitTextIntoTokenChunks approximateTokenCount 1 .paragraph
        (List.replicate 50 'a' ++ [' ', 'b']) =
      .ok [Chunk.fragment (List.replicate 50 'a') 13,
        Chunk.fragment ['b'] 1] ∧
    ([Chunk.fragment (List.replicate 50 'a') 13,
        Chunk.fragment ['b'] 1].flatMap Chunk.pieces ≠
      segment .paragraph (List.replicate 50 'a' ++ [' ', 'b'])) := by
  constructor
  · decide
  · decide

/-- C2 (amended): concatenating the constituent rows of all parts always
reproduces the stream's non-blank data lines exactly; concatenating the
constituent units of all chunks reproduces the unit sequence exactly
whenever no unit's own count exceeds the budget (hard-splitting an
oversized unit replaces it by fragments and may drop whitespace at
fragment boundaries). -/
theorem claim_C2 :
    (∀ (tc : List Char → Nat) (maxTokens : Int) (mode : Mode)
        (text : List Char) (chunks : List Chunk),
      splitTextIntoTokenChunks tc maxTokens mode text = .ok chunks →
      (∀ u ∈ segment mode text, tc u ≤ maxTokens.toNat) →
      chunks.flatMap Chunk.pieces = segment mode text) ∧
    (∀ (tc : List Char → Nat) (maxTokens : Int) (tm : TokenMode)
        (delim quote : Char) (lines : List (List Char)) (parts : List Part),
      splitCsvByTokens tc maxTokens tm delim quote true true lines =
        .ok parts →
      parts.flatMap Part.rows =
        (lines.filter (fun l => trimL l ≠ [])).drop 1) := by
  constructor
  · intro tc maxTokens mode text chunks hok hsmall
    simp only [splitTextIntoTokenChunks] at hok
    by_cases hneg : maxTokens ≤ 0
    · simp [if_pos hneg] at hok
    · rw [if_neg hneg] at hok
      simp only [Except.ok.injEq] at hok
      subst hok
      simpa using packGo_pieces tc maxTokens.toNat (segment mode text) [] 0
        hsmall
  · intro tc maxTokens tm delim quote lines parts hok
    simp only [splitCsvByTokens, Bool.not_true, Bool.false_eq_true,
      if_false] at hok
    by_cases hneg : maxTokens ≤ 0
    · simp [if_pos hneg] at hok
    · rw [if_neg hneg] at hok
      exact csvGo_none_rows tc maxTokens.toNat tm delim quote lines parts hok

theorem claim_C2_witness :
    ([Chunk.packed ["one one".toList, "two two".toList] 4,
        Chunk.packed ["three".toList] 2].flatMap Chunk.pieces =
      segment .paragraph "one one\n\ntwo two\n\nthree".toList) ∧
    ([({header := "a,b".toList, rows := ["cc".toList], tokens := 1} :
        Part)].flatMap Part.rows =
      (["a,b".toList, "cc".toList].filter (fun l => trimL l ≠ [])).drop 1) :=
  ⟨claim_C2.1 approximateTokenCount 4 .paragraph
      "one one\n\ntwo two\n\nthree".toList _ (by decide) (by decide),
   claim_C2.2 approximateTokenCount 1 .line ',' '"'
      ["a,b".toList, "cc".toList] _ (by decide)⟩

/-- C8: every part of a successful run of the row packer begins with the
stream's first non-blank line (the header), and the rows written across
all parts, concatenated in emission order, are exactly the stream's
non-blank data lines in original order — the raw lines themselves, in
both counting modes (`tm` is universally quantified and the written rows
are drawn from the input lines, not from the cell-joined counting text). -/
theorem claim_C8 (tc : List Char → Nat) (maxTokens : Int) (tm : TokenMode)
    (delim quote : Char) (lines : List (List Char)) (parts : List Part)
    (hok : splitCsvByTokens tc maxTokens tm delim quote true true lines =
      .ok parts) :
    (∀ p ∈ parts,
      some p.header = (lines.filter (fun l => trimL l ≠ [])).head?) ∧
    parts.flatMap Part.rows =
      (lines.filter (fun l => trimL l ≠ [])).drop 1 := by
  simp only [splitCsvByTokens, Bool.not_true, Bool.false_eq_true,
    if_false] at hok
  by_cases hneg : maxTokens ≤ 0
  · simp [if_pos hneg] at hok
  · rw [if_neg hneg] at hok
    exact ⟨csvGo_none_header tc maxTokens.toNat tm delim quote lines parts hok,
      csvGo_none_rows tc maxTokens.toNat tm delim quote lines parts hok⟩

theorem claim_C8_witness :
    (∀ p ∈ [({header := "a,b".toList, rows := ["1,2".toList], tokens := 2} :
          Part),
        ({header := "a,b".toList, rows := ["3,4".toList], tokens := 2} :
          Part)],
      some p.header =
        ((["a,b".toList, "".toList, "1,2".toList, "3,4".toList].filter
          (fun l => trimL l ≠ []))).head?) ∧
    [({header := "a,b".toList, rows := ["1,2".toList], tokens := 2} : Part),
      ({header := "a,b".toList, rows := ["3,4".toList], tokens := 2} :
        Part)].flatMap Part.rows =
      ((["a,b".toList, "".toList, "1,2".toList, "3,4".toList].filter
        (fun l => trimL l ≠ []))).drop 1 :=
  claim_C8 approximateTokenCount 3 .cells ',' '"'
    ["a,b".toList, "".toList, "1,2".toList, "3,4".toList] _ (by decide)

/-! ## The approximate-count formula (C3)

`approximateTokenCount` normalizes by collapsing whitespace runs and
trimming (one left-to-right pass); `specApproximateTokenCount` renders the
spec's words as the whitespace-separated words joined by single spaces.
The lemmas below prove the two normalizations equal. -/

theorem dropWhile_append_of_ne_nil (p : Char → Bool) :
    ∀ (u v : List Char), u.dropWhile p ≠ [] →
      (u ++ v).dropWhile p = u.dropWhile p ++ v := by
  intro u
  induction u with
  | nil => intro v h; exact absurd rfl h
  | cons a u ih =>
      intro v h
      by_cases ha : p a
      · rw [List.dropWhile_cons_of_pos ha] at h ⊢
        rw [List.cons_append, List.dropWhile_cons_of_pos ha]
        exact ih v h
      · rw [List.dropWhile_cons_of_neg ha] at h ⊢
        rw [List.cons_append, List.dropWhile_cons_of_neg ha]

theorem trimEndL_ne_nil_iff (x : List Char) :
    trimEndL x ≠ [] ↔ x.reverse.dropWhile isWs ≠ [] := by
  rw [trimEndL]
  constructor
  · intro h hc
    exact h (by rw [hc]; rfl)
  · intro h hc
    exact h (by simpa using congrArg List.reverse hc)

theorem trimEndL_append (a x : List Char) (h : trimEndL x ≠ []) :
    trimEndL (a ++ x) = a ++ trimEndL x := by
  have hx : x.reverse.dropWhile isWs ≠ [] := (trimEndL_ne_nil_iff x).mp h
  rw [trimEndL, List.reverse_append,
    dropWhile_append_of_ne_nil isWs x.reverse a.reverse hx,
    List.reverse_append, List.reverse_reverse]
  rfl

theorem trimEndL_cons_nonws (c : Char) (x : List Char)
    (hc : isWs c = false) : trimEndL (c :: x) ≠ [] := by
  rw [trimEndL_ne_nil_iff]
  intro hnil
  have := List.dropWhile_eq_nil_iff.mp hnil c (by simp)
  simp [hc] at this

theorem trimEndL_reverse_nonws (acc : List Char)
    (h : ∀ a ∈ acc, isWs a = false) : trimEndL acc.reverse = acc.reverse := by
  rw [trimEndL, List.reverse_reverse]
  cases acc with
  | nil => rfl
  | cons a t =>
      rw [List.dropWhile_cons_of_neg (by simp [h a (by simp)])]

theorem trimEndL_reverse_space (acc : List Char)
    (h : ∀ a ∈ acc, isWs a = false) :
    trimEndL (acc.reverse ++ [' ']) = acc.reverse := by
  rw [trimEndL, List.reverse_append, List.reverse_reverse]
  show (List.dropWhile isWs (' ' :: acc)).reverse = acc.reverse
  rw [List.dropWhile_cons_of_pos (by decide)]
  cases acc with
  | nil => rfl
  | cons a t =>
      rw [List.dropWhile_cons_of_neg (by simp [h a (by simp)])]

theorem wsWordsAux_ne_nil :
    ∀ (l acc : List Char), acc ≠ [] → wsWordsAux acc l ≠ [] := by
  intro l
  induction l with
  | nil =>
      intro acc h
      simp [wsWordsAux, h]
  | cons c cs ih =>
      intro acc h
      by_cases hc : isWs c
      · simp only [wsWordsAux, if_pos hc, if_neg h]
        simp
      · simp only [wsWordsAux, if_neg hc]
        exact ih (c :: acc) (by simp)

theorem joinWith_cons (sep w : List Char) (ws : List (List Char))
    (h : ws ≠ []) : joinWith sep (w :: ws) = w ++ sep ++ joinWith sep ws := by
  cases ws with
  | nil => exact absurd rfl h
  | cons w' ws' => rfl

/-- The simultaneous invariant of the collapse pass and the word scan:
mid-word (`collapseAux false`, accumulated word `acc`) and mid-run
(`collapseAux true`, word `acc` just closed by the emitted space), the
collapsed-and-right-trimmed text equals the words joined by spaces. -/
theorem collapse_words_aux :
    ∀ cs : List Char,
      (∀ acc : List Char, acc ≠ [] → (∀ a ∈ acc, isWs a = false) →
        trimEndL (acc.reverse ++ collapseAux false cs) =
          joinWith [' '] (wsWordsAux acc cs)) ∧
      (∀ acc : List Char, acc ≠ [] → (∀ a ∈ acc, isWs a = false) →
        trimEndL (acc.reverse ++ ' ' :: collapseAux true cs) =
          joinWith [' '] (acc.reverse :: wsWordsAux [] cs)) := by
  intro cs
  induction cs with
  | nil =>
      constructor
      · intro acc hne hnw
        rw [show collapseAux false [] = [] from rfl, List.append_nil,
          trimEndL_reverse_nonws acc hnw]
        simp [wsWordsAux, hne, joinWith]
      · intro acc hne hnw
        rw [show collapseAux true [] = [] from rfl]
        rw [show acc.reverse ++ [' '] = acc.reverse ++ [' '] from rfl,
          trimEndL_reverse_space acc hnw]
        simp [wsWordsAux, joinWith]
  | cons c cs ih =>
      obtain ⟨ihS, ihT⟩ := ih
      constructor
      · intro acc hne hnw
        by_cases hc : isWs c
        · rw [show collapseAux false (c :: cs) =
              ' ' :: collapseAux true cs by simp [collapseAux, hc]]
          rw [show wsWordsAux acc (c :: cs) =
              acc.reverse :: wsWordsAux [] cs by
            simp [wsWordsAux, hc, hne]]
          exact ihT acc hne hnw
        · rw [show collapseAux false (c :: cs) =
              c :: collapseAux false cs by simp [collapseAux, hc]]
          rw [show acc.reverse ++ c :: collapseAux false cs =
              (c :: acc).reverse ++ collapseAux false cs by simp]
          rw [show wsWordsAux acc (c :: cs) = wsWordsAux (c :: acc) cs by
            simp [wsWordsAux, hc]]
          refine ihS (c :: acc) (by simp) ?_
          intro a ha
          rcases List.mem_cons.mp ha with rfl | ha
          · simpa using hc
          · exact hnw a ha
      · intro acc hne hnw
        by_cases hc : isWs c
        · rw [show collapseAux true (c :: cs) = collapseAux true cs by
            simp [collapseAux, hc]]
          rw [show wsWordsAux [] (c :: cs) = wsWordsAux [] cs by
            simp [wsWordsAux, hc]]
          exact ihT acc hne hnw
        · rw [show collapseAux true (c :: cs) =
              c :: collapseAux false cs by simp [collapseAux, hc]]
          have hXne : trimEndL (c :: collapseAux false cs) ≠ [] :=
            trimEndL_cons_nonws c _ (by simpa using hc)
          rw [show acc.reverse ++ ' ' :: c :: collapseAux false cs =
              (acc.reverse ++ [' ']) ++ (c :: collapseAux false cs) by simp]
          rw [trimEndL_append _ _ hXne]
          have hX : trimEndL (c :: collapseAux false cs) =
              joinWith [' '] (wsWordsAux [c] cs) := by
            have := ihS [c] (by simp) (by simpa using hc)
            simpa using this
          rw [hX]
          rw [show wsWordsAux [] (c :: cs) = wsWordsAux [c] cs by
            simp [wsWordsAux, hc]]
          rw [joinWith_cons [' '] acc.reverse (wsWordsAux [c] cs)
            (wsWordsAux_ne_nil cs [c] (by simp))]

/-- The collapse pass inside a pending whitespace run at the very start of
a word-free prefix. -/
theorem collapse_words_run :
    ∀ cs : List Char,
      trimL (' ' :: collapseAux true cs) = joinWith [' '] (wsWordsAux [] cs) := by
  intro cs
  induction cs with
  | nil => rfl
  | cons c cs ih =>
      by_cases hc : isWs c
      · rw [show collapseAux true (c :: cs) = collapseAux true cs by
          simp [collapseAux, hc]]
        rw [show wsWordsAux [] (c :: cs) = wsWordsAux [] cs by
          simp [wsWordsAux, hc]]
        exact ih
      · rw [show collapseAux true (c :: cs) = c :: collapseAux false cs by
          simp [collapseAux, hc]]
        rw [show wsWordsAux [] (c :: cs) = wsWordsAux [c] cs by
          simp [wsWordsAux, hc]]
        rw [trimL, show trimStartL (' ' :: c :: collapseAux false cs) =
            c :: collapseAux false cs by
          rw [trimStartL,
            List.dropWhile_cons_of_pos (show isWs ' ' = true by decide),
            List.dropWhile_cons_of_neg hc]]
        have := (collapse_words_aux cs).1 [c] (by simp) (by simpa using hc)
        simpa using this

/-- The two normalizations agree: collapsing whitespace runs to single
spaces then trimming equals joining the whitespace-separated words with
single spaces. -/
theorem norm_eq (l : List Char) :
    trimL (collapseWs l) = specNormalize l := by
  cases l with
  | nil => rfl
  | cons c cs =>
      by_cases hc : isWs c
      · rw [show collapseWs (c :: cs) = ' ' :: collapseAux true cs by
          simp [collapseWs, collapseAux, hc]]
        rw [show specNormalize (c :: cs) =
            joinWith [' '] (wsWordsAux [] cs) by
          simp [specNormalize, wsWords, wsWordsAux, hc]]
        exact collapse_words_run cs
      · rw [show collapseWs (c :: cs) = c :: collapseAux false cs by
          simp [collapseWs, collapseAux, hc]]
        rw [show specNormalize (c :: cs) =
            joinWith [' '] (wsWordsAux [c] cs) by
          simp [specNormalize, wsWords, wsWordsAux, hc]]
        rw [trimL, show trimStartL (c :: collapseAux false cs) =
            c :: collapseAux false cs by
          rw [trimStartL, List.dropWhile_cons_of_neg hc]]
        have := (collapse_words_aux cs).1 [c] (by simp) (by simpa using hc)
        simpa using this

/-- C3: the approximate counter computes exactly the spec's formula —
collapse whitespace runs to one space and trim (equivalently: join the
whitespace-separated words with single spaces); 0 on an empty result;
otherwise `max 1 (⌈chars/4⌉ + ⌈punct/6⌉)` over the punctuation set
`. , ; : ! ? ( ) [ ] { } " '`. -/
theorem claim_C3 (text : List Char) :
    approximateTokenCount text = specApproximateTokenCount text := by
  rw [approximateTokenCount, specApproximateTokenCount, norm_eq]

end TokenSplitter
